import Mathlib

/-!
Verification of the Panda3D `pgraph` instancing excerpt: the copy-on-write
`InstanceList` container (`instanceList.h` / `instanceList.cxx`) and the
`InstancedNode` scene-graph node (`instancedNode.cxx`).

Modelling conventions (shallow embedding):

* `TransformState` objects are reference-counted immutable composites in the
  source; composing two of them yields a new composite.  We model a transform
  as a list of primitive tags (`List Nat`), with composition as concatenation
  (a free monoid).  This keeps composition associative, executable and
  non-trivial (composing a non-identity element always changes the value),
  which is all the claims need.
* An `LMatrix4` is opaque to every function modelled here (the only source
  function receiving one, `InstanceList::xform`, has an empty body), so it is
  modelled as a bare tag.
* A `BitArray` mask is a finite bit vector `List Bool`; bits past the end of
  the list read as off, matching `BitArray::get_bit` on a non-inverted array.
* `InstanceList::without` can return three provenances: the receiver itself
  (`return this;`), the function-local static `empty_list` singleton, or a
  freshly allocated list.  `WithoutResult` records the provenance, so that
  reference-identity claims become statements about the constructor.
* The Bam stream is modelled as a typed token list: a 16-bit integer token or
  a deferred pointer token carrying the referenced transform.  Reads that hit
  a token of the wrong kind fail (`Option`), reflecting that the reader's
  byte interpretation no longer matches what the writer produced.
-/

namespace Panda

/-- A composable transform: free-monoid model of `TransformState`
(composition is concatenation, the identity transform is `[]`). -/
abbrev TransformState := List Nat

/-- Composition `a->compose(b)` of two transform states. -/
def TransformState.compose (a b : TransformState) : TransformState := a ++ b

/-- An opaque 4x4 matrix tag. -/
abbrev LMatrix4 := Nat

/-- `InstanceList::Instance`: one per-instance datum holding a transform
(source: `instanceList.h`, class `Instance`, field `_transform`). -/
structure Instance where
  transform : TransformState
deriving DecidableEq, Repr

/-- A default-constructed `Instance` holds the identity transform. -/
instance : Inhabited Instance := ⟨⟨[]⟩⟩

/-- The `_instances` vector of an `InstanceList`. -/
abbrev InstanceList := List Instance

/-- `InstanceList::xform(const LMatrix4 &mat)` (instanceList.cxx lines 56-59).
The body of the function in the source is empty, so the list is returned
unchanged whatever the matrix is. -/
def InstanceList.xform (l : InstanceList) (_mat : LMatrix4) : InstanceList :=
  l

/-- Composing the matrix onto a transform, `new = matrix * old`: the matrix
enters the free monoid as a fresh primitive tag. -/
def composeMat (mat : LMatrix4) (t : TransformState) : TransformState :=
  mat :: t

/-- The behaviour the spec ascribes to `transform_all(matrix)`: every
instance's transform is replaced in place by `matrix * old`.  Stated from the
spec's words only, to be compared against `InstanceList.xform` above. -/
def specTransformAll (l : InstanceList) (mat : LMatrix4) : InstanceList :=
  l.map (fun inst => ⟨composeMat mat inst.transform⟩)

/-! ### BitArray model -/

/-- `BitArray::get_bit(i)`: bits beyond the stored words read as off. -/
def getBit (mask : List Bool) (i : Nat) : Bool := mask.getD i false

/-- `BitArray::get_num_on_bits()` for a finite mask. -/
def numOnBits (mask : List Bool) : Nat := mask.count true

/-- `BitArray::get_lowest_off_bit()`: index of the lowest off bit.  A finite
mask always has one (every bit past the end is off), so this is the index of
the first `false` entry, or the length when every stored bit is on. -/
def lowestOffBit (mask : List Bool) : Nat := mask.findIdx (fun b => !b)

/-- The mask with every bit at index `>= n` cleared. -/
def clearBitsFrom (mask : List Bool) (n : Nat) : List Bool := mask.take n

/-! ### InstanceList.without -/

/-- Provenance-tagged result of `InstanceList::without`: the source function
returns either the receiver (`return this;`), the function-local static
`empty_list` singleton, or a newly allocated list. -/
inductive WithoutResult where
  | same
  | emptySingleton
  | fresh (instances : List Instance)
deriving DecidableEq, Repr

/-- The copy loop of `InstanceList::without` (instanceList.cxx lines 84-88):
`for (size_t i = start; i < num_instances; ++i) if (!mask.get_bit(i))
push_back(_instances[i]);`. -/
def withoutScan (l : InstanceList) (mask : List Bool) (start : Nat) :
    List Instance :=
  (List.range' start (l.length - start)).filterMap
    (fun i => if getBit mask i then none else l.get? i)

/-- `InstanceList::without(const BitArray &mask)` (instanceList.cxx lines
64-91).  `num_culled` counts the on bits of the whole mask; zero on bits
returns the receiver; `num_culled >= size` returns the static empty list
(the `nassertr` inside that branch also returns `empty_list` when it fires,
so the branch is uniform); otherwise a fresh list is filled by scanning from
the mask's lowest off bit. -/
def InstanceList.without (l : InstanceList) (mask : List Bool) :
    WithoutResult :=
  let numInstances := l.length
  let numCulled := numOnBits mask
  if numCulled = 0 then
    .same
  else if numInstances ≤ numCulled then
    .emptySingleton
  else
    .fresh (withoutScan l mask (lowestOffBit mask))

/-- The instance sequence a `WithoutResult` denotes, given the receiver it
came from. -/
def resultContents (l : InstanceList) : WithoutResult → List Instance
  | .same => l
  | .emptySingleton => []
  | .fresh instances => instances

/-- The from-index-0 filtering of a list by a mask: every instance whose
index is not an on bit, in original order. -/
def filteredByMask (l : InstanceList) (mask : List Bool) : List Instance :=
  (List.range l.length).filterMap
    (fun i => if getBit mask i then none else l.get? i)

/-! ### Bam serialization model -/

/-- One token of a Bam datagram: a 16-bit integer, or a deferred pointer
token carrying the referenced transform object. -/
inductive Token where
  | u16 (value : Nat)
  | ptrTok (obj : TransformState)
deriving DecidableEq, Repr

/-- `Token` discriminator for pointer tokens. -/
def Token.isPtr : Token → Bool
  | .u16 _ => false
  | .ptrTok _ => true

/-- `InstanceList::write_datagram` (instanceList.cxx lines 105-112): after
the parent `CopyOnWriteObject::write_datagram` (which contributes no payload
tokens), it writes one deferred pointer token per instance, referencing that
instance's transform.  No count is written. -/
def write_datagram (l : InstanceList) : List Token :=
  l.map (fun inst => Token.ptrTok inst.transform)

/-- The serialized layout the spec states for the instance store:
`[uint16 count][count x pointer-token]`.  Stated from the spec's words only,
to be compared against `write_datagram` above. -/
def specInstanceStoreLayout (l : InstanceList) : List Token :=
  Token.u16 l.length :: l.map (fun inst => Token.ptrTok inst.transform)

/-- `DatagramIterator::get_uint16`: succeeds only when the next token really
is a 16-bit integer. -/
def getUint16 : List Token → Option (Nat × List Token)
  | Token.u16 n :: rest => some (n, rest)
  | _ => none

/-- `manager->read_pointer(scan)` iterated `n` times: consumes `n` pointer
tokens, queueing the referenced objects in request order. -/
def readPointers : Nat → List Token → Option (List TransformState × List Token)
  | 0, dg => some ([], dg)
  | n + 1, Token.ptrTok t :: rest =>
    (readPointers n rest).map (fun p => (t :: p.1, p.2))
  | _ + 1, _ => none

/-- `InstanceList::fillin` (instanceList.cxx lines 150-161): reads a uint16
count, resizes `_instances` to that many default instances, and requests one
pointer per instance.  Returns the resized list, the pointer-request queue,
and the unconsumed remainder of the datagram. -/
def fillin (dg : List Token) :
    Option (List Instance × List TransformState × List Token) :=
  match getUint16 dg with
  | none => none
  | some (n, rest) =>
    (readPointers n rest).map (fun p => (List.replicate n default, p.1, p.2))

/-- `InstanceList::complete_pointers` (instanceList.cxx lines 118-127): walks
the instances in order, rebinding the i-th instance to the i-th resolved
pointer of the request queue. -/
def complete_pointers (instances : List Instance)
    (plist : List TransformState) : List Instance :=
  (instances.zip plist).map (fun p => ⟨p.2⟩)

/-- Deserializing an instance list from a datagram: `fillin` followed by the
completion pass. -/
def readInstanceList (dg : List Token) : Option (List Instance) :=
  (fillin dg).map (fun p => complete_pointers p.1 p.2.1)

/-- Round trip through the code's writer. -/
def roundTrip (l : InstanceList) : Option (List Instance) :=
  readInstanceList (write_datagram l)

/-- Round trip through the layout the spec states (leading uint16 count). -/
def roundTripClaimed (l : InstanceList) : Option (List Instance) :=
  readInstanceList (specInstanceStoreLayout l)

/-! ### InstancedNode -/

/-- The state of an `InstancedNode` that `combine_with` consults
(instancedNode.cxx lines 98-115): whether the node's dynamic type is exactly
`InstancedNode` (`is_exact_type(get_class_type())`), and the reference
identity of its current-stage `InstanceList` snapshot (the pointer obtained
through `_instances.get_read_pointer(current_thread)`), modelled as an
object id. -/
structure InstancedNodeState where
  exactType : Bool
  instancesRef : Nat
deriving DecidableEq, Repr

/-- `InstancedNode::combine_with(PandaNode *other)` (instancedNode.cxx lines
98-115): if both nodes are of the exact concrete type and the two read
pointers compare equal, return `this`; otherwise return `nullptr`. -/
def combine_with (self other : InstancedNodeState) :
    Option InstancedNodeState :=
  if self.exactType && other.exactType then
    if self.instancesRef = other.instancesRef then some self else none
  else none

/-- The part of a `CullTraverserData` this subsystem touches: the
accumulated net transform, the view frustum pointer (nullable) and the
current cull-plane set. -/
structure CullTraverserData where
  netTransform : TransformState
  viewFrustum : Option Nat
  cullPlanes : List Nat
deriving DecidableEq, Repr

/-- `CullTraverserData::apply_transform`: composes the given transform into
the accumulated net transform. -/
def CullTraverserData.apply_transform (data : CullTraverserData)
    (t : TransformState) : CullTraverserData :=
  { data with netTransform := data.netTransform.compose t }

/-- `InstancedNode::cull_callback(trav, data)` (instancedNode.cxx lines
168-185): clears the view frustum and the cull planes on the incoming data,
fetches the current instance list, and for each instance in order clones the
data, composes that instance's transform into the clone and calls
`trav->traverse_below` on it; finally returns `false`.  The result pairs the
list of `traverse_below` invocations (in call order) with the returned
flag. -/
def cull_callback (instances : InstanceList) (data : CullTraverserData) :
    List CullTraverserData × Bool :=
  let culled : CullTraverserData :=
    { data with viewFrustum := none, cullPlanes := [] }
  (instances.map (fun inst => culled.apply_transform inst.transform), false)

/-- `InstancedNode::calc_tight_bounds` (instancedNode.cxx lines 128-148):
computes `next_transform = transform->compose(get_transform())`, then for
every instance index `ii` and every child index `ci` recurses into child
`ci` with `next_transform->compose(instances[ii].get_transform())`.  The
result pairs the list of recursive invocations `(ii, ci, transform passed)`
in call order with the returned transform `next_transform`. -/
def calc_tight_bounds (instances : InstanceList)
    (ownTransform : TransformState) (numChildren : Nat)
    (transform : TransformState) :
    List (Nat × Nat × TransformState) × TransformState :=
  let next := transform.compose ownTransform
  ((List.range instances.length).flatMap (fun ii =>
      (List.range numChildren).map (fun ci =>
        (ii, ci, next.compose (instances.getD ii default).transform))),
   next)

/-- Bounding volumes, coarsely: the infinite `OmniBoundingVolume`, or some
finite volume. -/
inductive BoundingVolume where
  | omni
  | box (lo hi : Nat)
deriving DecidableEq, Repr

/-- Point-containment test: an omni volume contains everything. -/
def BoundingVolume.containsPoint : BoundingVolume → Nat → Bool
  | .omni, _ => true
  | .box lo hi, p => decide (lo ≤ p ∧ p ≤ hi)

/-- `InstancedNode::compute_internal_bounds` (instancedNode.cxx lines
201-208): unconditionally assigns a newly allocated `OmniBoundingVolume`,
ignoring the instance list and the pipeline stage. -/
def compute_internal_bounds (_instances : InstanceList)
    (_pipelineStage : Nat) : BoundingVolume :=
  BoundingVolume.omni

/-! ### Helper lemmas -/

/-- A set bit of a finite mask lies below the mask's stored length. -/
theorem getBit_true_lt_length {mask : List Bool} {i : Nat}
    (h : getBit mask i = true) : i < mask.length := by
  by_contra hle
  rw [getBit, List.getD_eq_getElem?_getD, List.getElem?_eq_none (by omega)] at h
  simp at h

/-- Every bit below the lowest off bit is on. -/
theorem getBit_lt_lowestOffBit {mask : List Bool} {j : Nat}
    (h : j < lowestOffBit mask) : getBit mask j = true := by
  have hlen : j < mask.length :=
    lt_of_lt_of_le h (List.findIdx_le_length (fun b => !b))
  have h' : j < mask.findIdx (fun b => !b) := h
  have hb := List.not_of_lt_findIdx h'
  rw [getBit, List.getD_eq_getElem?_getD, List.getElem?_eq_getElem hlen]
  simpa using hb

/-- Splitting an initial range at an intermediate point. -/
theorem range_split {n m : Nat} (h : n ≤ m) :
    List.range m = List.range n ++ List.range' n (m - n) := by
  rw [List.range_eq_range']
  have := List.range'_append 0 n (m - n) 1
  simp only [Nat.zero_add, Nat.one_mul] at this
  rw [Nat.sub_add_cancel h] at this
  rw [← this, List.range_eq_range']

/-- Reading every index of a list back in order reproduces the list. -/
theorem filterMap_get_range (l : List Instance) :
    (List.range l.length).filterMap l.get? = l := by
  induction l with
  | nil => rfl
  | cons a t ih =>
    simp only [List.length_cons, List.range_succ_eq_map, List.filterMap_cons,
      List.get?_eq_getElem?, List.getElem?_cons_zero, List.filterMap_map,
      Function.comp_def, List.getElem?_cons_succ]
    have hf : (fun x => t[x]?) = t.get? :=
      funext fun x => (List.get?_eq_getElem? t x).symm
    rw [hf, ih]

/-- The scan of `InstanceList::without`, started at a point below which every
bit is on, filters exactly like a scan from index 0. -/
theorem withoutScan_eq_filteredByMask (l : InstanceList) (mask : List Bool)
    (start : Nat) (hstart : ∀ j, j < start → getBit mask j = true) :
    withoutScan l mask start = filteredByMask l mask := by
  rw [withoutScan, filteredByMask]
  by_cases hle : start ≤ l.length
  · rw [range_split hle, List.filterMap_append]
    have hnil : (List.range start).filterMap
        (fun i => if getBit mask i then none else l.get? i) = [] := by
      rw [List.filterMap_eq_nil_iff]
      intro i hi
      rw [List.mem_range] at hi
      rw [if_pos (hstart i hi)]
    rw [hnil, List.nil_append]
  · have h1 : l.length - start = 0 := by omega
    rw [h1]
    have h2 : ∀ i ∈ List.range l.length,
        (if getBit mask i then none else l.get? i) = (none : Option Instance) := by
      intro i hi
      rw [List.mem_range] at hi
      rw [if_pos (hstart i (by omega))]
    rw [List.filterMap_eq_nil_iff.mpr h2]
    rfl

/-- Counting the on bits of a mask by scanning every stored index. -/
theorem countP_getBit_range_length (mask : List Bool) :
    (List.range mask.length).countP (fun i => getBit mask i) = numOnBits mask := by
  induction mask with
  | nil => rfl
  | cons b rest ih =>
    rw [numOnBits, List.count_cons, List.length_cons, List.range_succ_eq_map,
      List.countP_cons, List.countP_map]
    have h1 : ((fun i => getBit (b :: rest) i) ∘ Nat.succ) = fun i => getBit rest i := by
      funext i
      simp [Function.comp, getBit]
    rw [h1, ih, numOnBits]
    cases b <;> simp [getBit]

/-- When every on bit of the mask lies below `n`, scanning `n` indices counts
all the on bits. -/
theorem countP_getBit_range (mask : List Bool) (n : Nat)
    (hin : ∀ i, getBit mask i = true → i < n) :
    (List.range n).countP (fun i => getBit mask i) = numOnBits mask := by
  have base := countP_getBit_range_length mask
  rcases Nat.le_total n mask.length with h | h
  · rw [range_split h, List.countP_append] at base
    have hz : (List.range' n (mask.length - n)).countP
        (fun i => getBit mask i) = 0 := by
      rw [List.countP_eq_zero]
      intro i hi
      rw [List.mem_range'_1] at hi
      intro hbit
      exact absurd (hin i hbit) (by omega)
    rw [hz] at base
    simpa using base
  · rw [range_split h, List.countP_append, base]
    have hz : (List.range' mask.length (n - mask.length)).countP
        (fun i => getBit mask i) = 0 := by
      rw [List.countP_eq_zero]
      intro i hi
      rw [List.mem_range'_1] at hi
      intro hbit
      exact absurd (getBit_true_lt_length hbit) (by omega)
    rw [hz]
    simp

/-- Length of the masked filter over a list of in-range indices. -/
theorem length_filterMap_indices (l : InstanceList) (mask : List Bool) :
    ∀ idxs : List Nat, (∀ i ∈ idxs, i < l.length) →
      (idxs.filterMap (fun i => if getBit mask i then none else l.get? i)).length
        = idxs.countP (fun i => !getBit mask i) := by
  intro idxs
  induction idxs with
  | nil => intro; rfl
  | cons j rest ih =>
    intro hmem
    have hj : j < l.length := hmem j (List.mem_cons_self j rest)
    have hrest : ∀ i ∈ rest, i < l.length :=
      fun i hi => hmem i (List.mem_cons_of_mem j hi)
    cases hb : getBit mask j with
    | true =>
      rw [List.filterMap_cons_none (by rw [hb]; rfl), List.countP_cons,
        ih hrest, hb]
      simp
    | false =>
      have hsome : (if getBit mask j then none else l.get? j) = some l[j] := by
        rw [hb]
        simp [List.get?_eq_getElem?, List.getElem?_eq_getElem hj]
      rw [@List.filterMap_cons_some Nat Instance
        (fun i => if getBit mask i then none else l.get? i) j rest _ hsome,
        List.countP_cons, List.length_cons, ih hrest, hb]
      simp

/-- Size of the from-zero filtered derivation: the list size minus the number
of on bits, provided every on bit is in range. -/
theorem filteredByMask_length (l : InstanceList) (mask : List Bool)
    (hin : ∀ i, getBit mask i = true → i < l.length) :
    (filteredByMask l mask).length = l.length - numOnBits mask := by
  rw [filteredByMask, length_filterMap_indices l mask _
    (fun i hi => List.mem_range.mp hi)]
  have h1 := countP_getBit_range mask l.length hin
  have h2 : ∀ xs : List Nat,
      xs.countP (fun i => getBit mask i) + xs.countP (fun i => !getBit mask i)
        = xs.length := by
    intro xs
    induction xs with
    | nil => rfl
    | cons x t iht =>
      rw [List.countP_cons, List.countP_cons, List.length_cons]
      cases hgx : getBit mask x <;> simp [hgx] <;> omega
  have h2r := h2 (List.range l.length)
  rw [List.length_range] at h2r
  omega

/-- A mask with no on bits reads off at every index. -/
theorem getBit_of_numOnBits_zero {mask : List Bool}
    (h : numOnBits mask = 0) (i : Nat) : getBit mask i = false := by
  by_cases hi : i < mask.length
  · have hmem : mask.getD i false ∈ mask := by
      rw [List.getD_eq_getElem?_getD, List.getElem?_eq_getElem hi]
      exact List.getElem_mem hi
    cases hb : mask.getD i false with
    | false => rw [getBit, hb]
    | true =>
      rw [numOnBits, List.count_eq_zero] at h
      rw [hb] at hmem
      exact absurd hmem h
  · rw [getBit, List.getD_eq_getElem?_getD, List.getElem?_eq_none (by omega)]
    rfl

/-- Clearing high bits never adds on bits. -/
theorem numOnBits_clear_le (mask : List Bool) (n : Nat) :
    numOnBits (clearBitsFrom mask n) ≤ numOnBits mask :=
  List.Sublist.count_le (List.take_sublist n mask) true

/-- Clearing high bits leaves the low bits alone. -/
theorem getBit_clear_lt {mask : List Bool} {n i : Nat} (h : i < n) :
    getBit (clearBitsFrom mask n) i = getBit mask i := by
  rw [getBit, getBit, clearBitsFrom, List.getD_eq_getElem?_getD,
    List.getD_eq_getElem?_getD, List.getElem?_take_of_lt h]

/-- If every bit below the list length is off, the filtered derivation keeps
everything. -/
theorem filteredByMask_all_off {l : InstanceList} {mask : List Bool}
    (h : ∀ i, i < l.length → getBit mask i = false) :
    filteredByMask l mask = l := by
  rw [filteredByMask]
  have hcongr : ∀ i ∈ List.range l.length,
      (if getBit mask i then none else l.get? i) = l.get? i := by
    intro i hi
    rw [h i (List.mem_range.mp hi)]
    simp
  rw [List.filterMap_congr hcongr]
  exact filterMap_get_range l

/-- The filtered derivation only consults bits below the list length. -/
theorem filteredByMask_clear (l : InstanceList) (mask : List Bool) :
    filteredByMask l (clearBitsFrom mask l.length) = filteredByMask l mask := by
  rw [filteredByMask, filteredByMask]
  apply List.filterMap_congr
  intro i hi
  rw [getBit_clear_lt (List.mem_range.mp hi)]

/-- Branch characterization of `without`: no on bits returns the receiver. -/
theorem without_eq_same {l : InstanceList} {mask : List Bool}
    (h : numOnBits mask = 0) : l.without mask = .same := by
  simp only [InstanceList.without]
  rw [if_pos h]

/-- Branch characterization of `without`: at least one on bit and at least as
many on bits as instances returns the static empty singleton. -/
theorem without_eq_emptySingleton {l : InstanceList} {mask : List Bool}
    (h0 : numOnBits mask ≠ 0) (h1 : l.length ≤ numOnBits mask) :
    l.without mask = .emptySingleton := by
  simp only [InstanceList.without]
  rw [if_neg h0, if_pos h1]

/-- Branch characterization of `without`: fewer on bits than instances (and
at least one) allocates a fresh list holding the from-zero filtering. -/
theorem without_eq_fresh {l : InstanceList} {mask : List Bool}
    (h0 : numOnBits mask ≠ 0) (h1 : numOnBits mask < l.length) :
    l.without mask = .fresh (filteredByMask l mask) := by
  simp only [InstanceList.without]
  rw [if_neg h0, if_neg (by omega)]
  rw [withoutScan_eq_filteredByMask l mask _
    (fun j hj => getBit_lt_lowestOffBit hj)]

/-! ### Claims -/

/-- C1: the spec claims `xform(M)` replaces each instance's transform with
`M` composed with the old transform.  The body of `InstanceList::xform` in
the source is empty, so the list is left unchanged by every call — against
both the claim and the function's own doc comment.  First conjunct: the code
is a universal no-op.  Second conjunct: at the failing input (a one-instance
list and a non-identity matrix) the code's result differs from the behaviour
the claim demands, as expressed by `specTransformAll`. -/
theorem xform_leaves_transforms_unchanged :
    (∀ (l : InstanceList) (mat : LMatrix4), l.xform mat = l)
    ∧ InstanceList.xform [⟨[0]⟩] 1 ≠ specTransformAll [⟨[0]⟩] 1 :=
  ⟨fun _ _ => rfl, by decide⟩

/-- C2: the spec claims `write_datagram` emits a 16-bit count followed by
one pointer token per instance.  The source never writes the count: every
token it emits is a pointer token, so its output differs from the claimed
layout `specInstanceStoreLayout` already on a one-instance list (and is two
bytes shorter than what `fillin` expects to read back). -/
theorem write_datagram_omits_count :
    (∀ l : InstanceList, (write_datagram l).all Token.isPtr = true)
    ∧ write_datagram [⟨[0]⟩] ≠ specInstanceStoreLayout [⟨[0]⟩] := by
  constructor
  · intro l
    rw [List.all_eq_true]
    intro t ht
    rw [write_datagram] at ht
    obtain ⟨inst, _, rfl⟩ := List.mem_map.mp ht
    rfl
  · decide

/-- C3: the spec claims serialize-then-deserialize reproduces the list.
Because `write_datagram` omits the uint16 count that `fillin` reads first,
the round trip through the code's writer fails for every list (the reader's
first `get_uint16` hits a pointer token, or the end of the datagram).  The
second conjunct shows the reader halves are coherent with the claimed
layout: reading `specInstanceStoreLayout` back through `fillin` and
`complete_pointers` reproduces the original list, which pinpoints the writer
as the broken half. -/
theorem round_trip_fails_on_missing_count :
    (∀ l : InstanceList, roundTrip l = none)
    ∧ roundTripClaimed [⟨[0]⟩, ⟨[1]⟩] = some [⟨[0]⟩, ⟨[1]⟩] := by
  constructor
  · intro l
    cases l with
    | nil => rfl
    | cons a t => rfl
  · decide

/-- C4 (counterexample): the claim says `without(M)` returns the same result
as `without` of `M` with the bits at indices `>= size` cleared.  On the
one-instance list with `M` having only bit 1 on, the out-of-range bit still
counts toward `num_culled`, so the code returns the empty singleton, while
the cleared mask has no on bits and the receiver itself is returned: the two
results differ even in contents. -/
theorem without_high_bit_changes_result :
    resultContents [⟨[0]⟩] (InstanceList.without [⟨[0]⟩] [false, true])
      ≠ resultContents [⟨[0]⟩]
          (InstanceList.without [⟨[0]⟩] (clearBitsFrom [false, true] 1)) := by
  decide

/-- C4 (amended): no call to `without` errs (the model is a total function),
out-of-range bits are never consulted by the element scan, and whenever the
whole mask's popcount stays below the list size the result has the same
contents as for the mask with the out-of-range bits cleared.  (When the
popcount reaches the list size the out-of-range bits can redirect the call
into the empty-singleton branch, as the counterexample shows.) -/
theorem without_ignores_high_bits_when_popcount_small (l : InstanceList)
    (mask : List Bool) (h : numOnBits mask < l.length) :
    resultContents l (l.without mask)
      = resultContents l (l.without (clearBitsFrom mask l.length)) := by
  by_cases hc : numOnBits mask = 0
  · have hc2 : numOnBits (clearBitsFrom mask l.length) = 0 :=
      Nat.le_antisymm (hc ▸ numOnBits_clear_le mask l.length) (Nat.zero_le _)
    rw [without_eq_same hc, without_eq_same hc2]
  · rw [without_eq_fresh hc h]
    by_cases hc0 : numOnBits (clearBitsFrom mask l.length) = 0
    · have hoff : ∀ i, i < l.length → getBit mask i = false := by
        intro i hi
        rw [← getBit_clear_lt hi]
        exact getBit_of_numOnBits_zero hc0 i
      rw [without_eq_same hc0]
      simp only [resultContents]
      exact filteredByMask_all_off hoff
    · have hlt : numOnBits (clearBitsFrom mask l.length) < l.length :=
        lt_of_le_of_lt (numOnBits_clear_le mask l.length) h
      rw [without_eq_fresh hc0 hlt]
      simp only [resultContents]
      rw [filteredByMask_clear]

/-- C4 (witness): the amended statement at a concrete input — a two-instance
list and a mask whose only on bit is the out-of-range bit 2. -/
theorem without_ignores_high_bits_when_popcount_small_witness :
    numOnBits [false, false, true] < 2
    ∧ resultContents [⟨[0]⟩, ⟨[1]⟩]
        (InstanceList.without [⟨[0]⟩, ⟨[1]⟩] [false, false, true])
      = resultContents [⟨[0]⟩, ⟨[1]⟩]
          (InstanceList.without [⟨[0]⟩, ⟨[1]⟩]
            (clearBitsFrom [false, false, true] 2)) :=
  ⟨by decide,
   without_ignores_high_bits_when_popcount_small [⟨[0]⟩, ⟨[1]⟩]
     [false, false, true] (by decide)⟩

/-- C5 (counterexample): the claim includes the case
`popcount(M) = size(L) = 0`, but there the code takes the
`num_culled == 0` early-out and returns the receiver itself, not the
canonical empty singleton. -/
theorem without_zero_popcount_returns_receiver :
    InstanceList.without ([] : InstanceList) [] = .same
    ∧ InstanceList.without ([] : InstanceList) [] ≠ .emptySingleton := by
  decide

/-- C5 (amended): whenever the mask has at least one on bit and at least as
many on bits as the list has instances, `without` returns the function-local
static empty list — the same shared object on every such call, which the
`WithoutResult.emptySingleton` provenance denotes.  With zero on bits (the
only other way to satisfy `popcount >= size`) the receiver itself is
returned instead. -/
theorem without_popcount_ge_size_empty_singleton (l : InstanceList)
    (mask : List Bool) (h0 : 0 < numOnBits mask)
    (h1 : l.length ≤ numOnBits mask) :
    l.without mask = .emptySingleton :=
  without_eq_emptySingleton (by omega) h1

/-- C5 (witness): the amended statement at a concrete input. -/
theorem without_popcount_ge_size_empty_singleton_witness :
    0 < numOnBits [true]
    ∧ InstanceList.without [⟨[0]⟩] [true] = .emptySingleton :=
  ⟨by decide,
   without_popcount_ge_size_empty_singleton [⟨[0]⟩] [true]
     (by decide) (by decide)⟩

/-- C6 (counterexample): the claim quantifies over every mask with
`0 < popcount(M) < size(L)`.  With two instances and a mask whose only on
bit is the out-of-range bit 5, the precondition holds, yet the result keeps
both instances: its size is 2, not `size - popcount = 1`. -/
theorem without_out_of_range_bit_breaks_size :
    0 < numOnBits [false, false, false, false, false, true]
    ∧ numOnBits [false, false, false, false, false, true]
        < ([⟨[0]⟩, ⟨[1]⟩] : InstanceList).length
    ∧ (resultContents [⟨[0]⟩, ⟨[1]⟩]
          (InstanceList.without [⟨[0]⟩, ⟨[1]⟩]
            [false, false, false, false, false, true])).length
        ≠ ([⟨[0]⟩, ⟨[1]⟩] : InstanceList).length
            - numOnBits [false, false, false, false, false, true] := by
  decide

/-- C6 (amended): for masks all of whose on bits are in range, with
`0 < popcount(M) < size(L)`, `without` allocates a fresh list whose contents
are exactly the instances at indices that are not on bits, in their original
relative order (`filteredByMask`, the from-zero filtering), and whose size
is `size(L) - popcount(M)`. -/
theorem without_in_range_mask_filters (l : InstanceList) (mask : List Bool)
    (hin : ∀ i, getBit mask i = true → i < l.length)
    (h0 : 0 < numOnBits mask) (h1 : numOnBits mask < l.length) :
    l.without mask = .fresh (filteredByMask l mask)
    ∧ (filteredByMask l mask).length = l.length - numOnBits mask :=
  ⟨without_eq_fresh (by omega) h1, filteredByMask_length l mask hin⟩

/-- C6 (witness): the amended statement at a concrete input — three
instances, mask with bit 1 on. -/
theorem without_in_range_mask_filters_witness :
    InstanceList.without [⟨[0]⟩, ⟨[1]⟩, ⟨[2]⟩] [false, true]
        = .fresh (filteredByMask [⟨[0]⟩, ⟨[1]⟩, ⟨[2]⟩] [false, true])
    ∧ (filteredByMask [⟨[0]⟩, ⟨[1]⟩, ⟨[2]⟩] [false, true]).length
        = 3 - numOnBits [false, true] :=
  without_in_range_mask_filters [⟨[0]⟩, ⟨[1]⟩, ⟨[2]⟩] [false, true]
    (fun i hi =>
      Nat.lt_of_lt_of_le (getBit_true_lt_length hi) (by decide))
    (by decide) (by decide)

/-- C10: `InstancedNode::compute_internal_bounds` assigns a fresh
`OmniBoundingVolume` whatever the instance list (including the empty one)
and the pipeline stage are, and an omni volume contains every point, so the
node's internal bounds never exclude it from a bounding-volume test. -/
theorem compute_internal_bounds_always_omni :
    ∀ (instances : InstanceList) (stage : Nat),
      compute_internal_bounds instances stage = .omni
      ∧ ∀ p, (compute_internal_bounds instances stage).containsPoint p = true :=
  fun _ _ => ⟨rfl, fun _ => rfl⟩

/-- C7: `combine_with(other)` returns the receiver exactly when both nodes
are of the exact concrete type `InstancedNode` and their current instance
list snapshots are reference-identical; every other outcome is null.  In
particular (third conjunct) two snapshots that hold equal contents under any
heap assignment but are distinct objects do not combine. -/
theorem combine_with_requires_identical_lists
    (self other : InstancedNodeState) (contents : Nat → InstanceList) :
    (combine_with self other = some self
      ↔ self.exactType = true ∧ other.exactType = true
        ∧ self.instancesRef = other.instancesRef)
    ∧ (combine_with self other = some self ∨ combine_with self other = none)
    ∧ (contents self.instancesRef = contents other.instancesRef →
        self.instancesRef ≠ other.instancesRef →
        combine_with self other = none) := by
  obtain ⟨se, sr⟩ := self
  obtain ⟨oe, oref⟩ := other
  by_cases hr : sr = oref
  · subst hr
    cases se <;> cases oe <;> simp [combine_with]
  · cases se <;> cases oe <;> simp [combine_with, hr]

/-- C7 (witness): two exact-type nodes whose snapshots have equal contents
under the heap assignment but distinct object identities do not combine. -/
theorem combine_with_requires_identical_lists_witness :
    combine_with ⟨true, 0⟩ ⟨true, 1⟩ = none :=
  (combine_with_requires_identical_lists ⟨true, 0⟩ ⟨true, 1⟩
    (fun _ => [])).2.2 rfl (by decide)

/-- C8: `cull_callback` spawns exactly one `traverse_below` invocation per
instance, in list order, each on a clone of the (culling-disabled) incoming
data with that instance's transform composed into the accumulated net
transform; the empty list spawns none; and the callback returns `false`, so
the traversal engine does not separately traverse the children with the
un-instanced transform. -/
theorem cull_callback_fans_out_per_instance (instances : InstanceList)
    (data : CullTraverserData) :
    (cull_callback instances data).2 = false
    ∧ (cull_callback instances data).1.length = instances.length
    ∧ (∀ i : Nat,
        ((cull_callback instances data).1[i]?.map CullTraverserData.netTransform)
          = instances[i]?.map
              (fun inst => data.netTransform.compose inst.transform))
    ∧ cull_callback [] data = ([], false) := by
  refine ⟨rfl, by simp [cull_callback], ?_, rfl⟩
  intro i
  cases hx : instances[i]? with
  | none => simp [cull_callback, List.getElem?_map, hx]
  | some inst =>
    simp [cull_callback, List.getElem?_map, hx,
      CullTraverserData.apply_transform]

/-- C9: `calc_tight_bounds` recurses into every child once per instance,
passing the incoming transform composed with the node's own transform and
then with that instance's transform; the invocation list covers exactly the
pairs of an instance index and a child index; and the un-instanced composed
transform `transform->compose(get_transform())` is what is returned to the
caller for further composition upward. -/
theorem calc_tight_bounds_covers_instances_and_children
    (instances : InstanceList) (own : TransformState) (numChildren : Nat)
    (transform : TransformState) :
    (calc_tight_bounds instances own numChildren transform).2
        = transform.compose own
    ∧ (calc_tight_bounds instances own numChildren transform).1.length
        = instances.length * numChildren
    ∧ ∀ ii ci t,
        ((ii, ci, t) ∈ (calc_tight_bounds instances own numChildren transform).1
          ↔ ii < instances.length ∧ ci < numChildren
            ∧ t = (transform.compose own).compose
                (instances.getD ii default).transform) := by
  refine ⟨rfl, ?_, ?_⟩
  · simp [calc_tight_bounds, List.length_flatMap, Function.comp_def,
      List.length_map, List.map_const', List.sum_replicate, smul_eq_mul]
  · intro ii ci t
    simp only [calc_tight_bounds]
    rw [List.mem_flatMap]
    constructor
    · rintro ⟨a, ha, hmem⟩
      rw [List.mem_range] at ha
      rw [List.mem_map] at hmem
      obtain ⟨b, hb, heq⟩ := hmem
      rw [List.mem_range] at hb
      cases heq
      exact ⟨ha, hb, rfl⟩
    · rintro ⟨h1, h2, rfl⟩
      exact ⟨ii, List.mem_range.mpr h1,
        List.mem_map.mpr ⟨ci, List.mem_range.mpr h2, rfl⟩⟩

end Panda
